import Mathlib

/-!
Verification of the magenta chroma-key edge-smoothing pipeline
(`smooth_edges.py`): mask building by squared RGB distance to the
chroma-key color, optional upscale / Gaussian blur / downscale of the
mask, and alpha compositing over an optional background color.

The per-pixel arithmetic (`is_background_pixel`, `make_mask`, the
control flow of `smooth_alpha` and `main`) is embedded directly from
the source.  The imaging-library primitives the source delegates to
(Lanczos resampling, Gaussian blur, alpha compositing) are not part of
the repository; following the design notes they are treated as
pluggable Resizer / Blurrer capabilities constrained by the contracts
the specification states for them, and the compositing formula is
modelled from the specification.
-/

namespace SmoothEdges

/-- A pixel grid: dimensions plus a pixel lookup function.  Pixels at
coordinates `x < width`, `y < height` are the real content; the lookup
is total for convenience of the embedding. -/
@[ext]
structure Image (α : Type) where
  width : Nat
  height : Nat
  pix : Nat → Nat → α

/-- A pixel with three color channels and an opacity channel, each a
byte value 0–255 (mode RGBA in the source). -/
structure RGBA where
  r : Nat
  g : Nat
  b : Nat
  a : Nat
deriving DecidableEq, Repr

/-- A pixel with three color channels (mode RGB in the source). -/
structure RGB where
  r : Nat
  g : Nat
  b : Nat
deriving DecidableEq, Repr

/-- The fixed chroma-key color, `MAGENTA = (255, 0, 255)`. -/
def MAGENTA : Nat × Nat × Nat := (255, 0, 255)

/-- Embeds `is_background_pixel(px, tolerance)`: squared distance in
RGB space to `MAGENTA`, compared against the squared tolerance.
Channel values are bytes but Python subtraction is over ℤ, hence the
casts; the tolerance is a Python int, possibly negative. -/
def is_background_pixel (px : RGBA) (tolerance : Int) : Bool :=
  let dr : Int := (px.r : Int) - (MAGENTA.1 : Int)
  let dg : Int := (px.g : Int) - (MAGENTA.2.1 : Int)
  let db : Int := (px.b : Int) - (MAGENTA.2.2 : Int)
  decide (dr * dr + dg * dg + db * db ≤ tolerance * tolerance)

/-- Embeds `make_mask(img, tolerance)`: a single-channel mask of the
same dimensions, 0 where `is_background_pixel` holds and 255
elsewhere. -/
def make_mask (img : Image RGBA) (tolerance : Int) : Image Nat :=
  { width := img.width
    height := img.height
    pix := fun x y => if is_background_pixel (img.pix x y) tolerance then 0 else 255 }

theorem is_background_pixel_iff (px : RGBA) (t : Int) :
    is_background_pixel px t = true ↔
      ((px.r : Int) - 255) * ((px.r : Int) - 255) +
        ((px.g : Int) - 0) * ((px.g : Int) - 0) +
        ((px.b : Int) - 255) * ((px.b : Int) - 255) ≤ t * t := by
  simp [is_background_pixel, MAGENTA]

theorem make_mask_pix (img : Image RGBA) (t : Int) (x y : Nat) :
    (make_mask img t).pix x y =
      if is_background_pixel (img.pix x y) t then 0 else 255 := rfl

/-- C1: for every image, non-negative tolerance and in-bounds
coordinate, the mask pixel is 0 exactly when the squared RGB distance
of the image pixel to (255, 0, 255) is at most tolerance², and 255
otherwise. -/
theorem C1_mask_classification (img : Image RGBA) (t : Int) (ht : 0 ≤ t)
    (x y : Nat) (hx : x < img.width) (hy : y < img.height) :
    ((make_mask img t).pix x y = 0 ↔
      ((img.pix x y).r - 255 : Int) * ((img.pix x y).r - 255 : Int) +
        ((img.pix x y).g - 0 : Int) * ((img.pix x y).g - 0 : Int) +
        ((img.pix x y).b - 255 : Int) * ((img.pix x y).b - 255 : Int) ≤ t * t) ∧
    ((make_mask img t).pix x y = 255 ↔
      ¬ (((img.pix x y).r - 255 : Int) * ((img.pix x y).r - 255 : Int) +
        ((img.pix x y).g - 0 : Int) * ((img.pix x y).g - 0 : Int) +
        ((img.pix x y).b - 255 : Int) * ((img.pix x y).b - 255 : Int) ≤ t * t)) := by
  have hd := is_background_pixel_iff (img.pix x y) t
  rw [make_mask_pix]
  by_cases hbg : is_background_pixel (img.pix x y) t = true
  · have hle := hd.mp hbg
    rw [if_pos hbg]
    exact ⟨⟨fun _ => hle, fun _ => rfl⟩,
      ⟨fun h255 => absurd h255 (by decide), fun hn => absurd hle hn⟩⟩
  · have hgt := fun h => hbg (hd.mpr h)
    rw [if_neg hbg]
    exact ⟨⟨fun h0 => absurd h0 (by decide), fun h => absurd h hgt⟩,
      ⟨fun _ => hgt, fun _ => rfl⟩⟩

/-- Concrete images used by the witness theorems. -/
def tinyRGBA : Image RGBA :=
  { width := 1, height := 1, pix := fun _ _ => ⟨255, 0, 255, 255⟩ }

theorem C1_mask_classification_witness :
    (make_mask tinyRGBA 10).pix 0 0 = 0 ↔
      ((tinyRGBA.pix 0 0).r - 255 : Int) * ((tinyRGBA.pix 0 0).r - 255 : Int) +
        ((tinyRGBA.pix 0 0).g - 0 : Int) * ((tinyRGBA.pix 0 0).g - 0 : Int) +
        ((tinyRGBA.pix 0 0).b - 255 : Int) * ((tinyRGBA.pix 0 0).b - 255 : Int) ≤
        (10 : Int) * 10 :=
  (C1_mask_classification tinyRGBA 10 (by decide) 0 0 (by decide) (by decide)).1

/-- C3: with tolerance 0 the Mask Builder classifies as background
exactly the pixels equal to (255, 0, 255); with any tolerance of at
least 442, every pixel with byte-range channels is classified as
background (mask value 0). -/
theorem C3_tolerance_extremes (img : Image RGBA) (x y : Nat) (t : Int)
    (ht : 442 ≤ t)
    (hr : (img.pix x y).r ≤ 255) (hg : (img.pix x y).g ≤ 255)
    (hb : (img.pix x y).b ≤ 255) :
    ((make_mask img 0).pix x y = 0 ↔
      (img.pix x y).r = 255 ∧ (img.pix x y).g = 0 ∧ (img.pix x y).b = 255) ∧
    (make_mask img t).pix x y = 0 := by
  constructor
  · rw [make_mask_pix]
    constructor
    · intro h0
      by_cases hbg : is_background_pixel (img.pix x y) 0 = true
      · have hle := (is_background_pixel_iff (img.pix x y) 0).mp hbg
        have h1 := mul_self_nonneg ((img.pix x y).r - 255 : Int)
        have h2 := mul_self_nonneg ((img.pix x y).g - 0 : Int)
        have h3 := mul_self_nonneg ((img.pix x y).b - 255 : Int)
        have hr0 : ((img.pix x y).r - 255 : Int) = 0 := by
          have : ((img.pix x y).r - 255 : Int) * ((img.pix x y).r - 255 : Int) = 0 := by
            nlinarith
          exact mul_self_eq_zero.mp this
        have hg0 : ((img.pix x y).g - 0 : Int) = 0 := by
          have : ((img.pix x y).g - 0 : Int) * ((img.pix x y).g - 0 : Int) = 0 := by
            nlinarith
          exact mul_self_eq_zero.mp this
        have hb0 : ((img.pix x y).b - 255 : Int) = 0 := by
          have : ((img.pix x y).b - 255 : Int) * ((img.pix x y).b - 255 : Int) = 0 := by
            nlinarith
          refine mul_self_eq_zero.mp this
        refine ⟨?_, ?_, ?_⟩
        · have : ((img.pix x y).r : Int) = 255 := by linarith
          exact_mod_cast this
        · have : ((img.pix x y).g : Int) = 0 := by linarith
          exact_mod_cast this
        · have : ((img.pix x y).b : Int) = 255 := by linarith
          exact_mod_cast this
      · rw [if_neg hbg] at h0
        exact absurd h0 (by decide)
    · rintro ⟨h1, h2, h3⟩
      have hbg : is_background_pixel (img.pix x y) 0 = true := by
        apply (is_background_pixel_iff (img.pix x y) 0).mpr
        rw [h1, h2, h3]
        norm_num
      rw [if_pos hbg]
  · rw [make_mask_pix]
    have hbg : is_background_pixel (img.pix x y) t = true := by
      apply (is_background_pixel_iff (img.pix x y) t).mpr
      have hrI : (0 : Int) ≤ ((img.pix x y).r : Int) ∧ ((img.pix x y).r : Int) ≤ 255 :=
        ⟨Int.ofNat_nonneg _, by exact_mod_cast hr⟩
      have hgI : (0 : Int) ≤ ((img.pix x y).g : Int) ∧ ((img.pix x y).g : Int) ≤ 255 :=
        ⟨Int.ofNat_nonneg _, by exact_mod_cast hg⟩
      have hbI : (0 : Int) ≤ ((img.pix x y).b : Int) ∧ ((img.pix x y).b : Int) ≤ 255 :=
        ⟨Int.ofNat_nonneg _, by exact_mod_cast hb⟩
      nlinarith [hrI.1, hrI.2, hgI.1, hgI.2, hbI.1, hbI.2, ht]
    rw [if_pos hbg]

theorem C3_tolerance_extremes_witness :
    ((make_mask tinyRGBA 0).pix 0 0 = 0 ↔
      (tinyRGBA.pix 0 0).r = 255 ∧ (tinyRGBA.pix 0 0).g = 0 ∧
        (tinyRGBA.pix 0 0).b = 255) ∧
    (make_mask tinyRGBA 442).pix 0 0 = 0 :=
  C3_tolerance_extremes tinyRGBA 0 0 442 (by decide) (by decide) (by decide)
    (by decide)

/-- C8: classification is even in the tolerance: every pixel is
classified identically under tolerance t and tolerance −t, both by
`is_background_pixel` and by `make_mask`. -/
theorem C8_tolerance_sign (px : RGBA) (t : Int) :
    is_background_pixel px (-t) = is_background_pixel px t ∧
    ∀ (img : Image RGBA) (x y : Nat),
      (make_mask img (-t)).pix x y = (make_mask img t).pix x y := by
  have key : ∀ q : RGBA, is_background_pixel q (-t) = is_background_pixel q t := by
    intro q
    simp only [is_background_pixel, neg_mul_neg]
  exact ⟨key px, fun img x y => by rw [make_mask_pix, make_mask_pix, key]⟩

/-- C9: background classification is monotone in the tolerance: for
0 ≤ t ≤ t', background at t implies background at t' (pixel-wise and
mask-wise), and foreground at t' implies foreground at t. -/
theorem C9_tolerance_monotone (px : RGBA) (t t' : Int) (h0 : 0 ≤ t)
    (htt : t ≤ t') :
    (is_background_pixel px t = true → is_background_pixel px t' = true) ∧
    (∀ (img : Image RGBA) (x y : Nat),
      ((make_mask img t).pix x y = 0 → (make_mask img t').pix x y = 0) ∧
      ((make_mask img t').pix x y = 255 → (make_mask img t).pix x y = 255)) := by
  have key : ∀ q : RGBA,
      is_background_pixel q t = true → is_background_pixel q t' = true := by
    intro q h
    apply (is_background_pixel_iff q t').mpr
    have hle := (is_background_pixel_iff q t).mp h
    have : t * t ≤ t' * t' := mul_le_mul htt htt h0 (le_trans h0 htt)
    linarith
  refine ⟨key px, fun img x y => ?_⟩
  rw [make_mask_pix, make_mask_pix]
  by_cases hbg : is_background_pixel (img.pix x y) t = true
  · rw [if_pos hbg, if_pos (key _ hbg)]
    exact ⟨fun _ => rfl, fun h => h⟩
  · rw [if_neg hbg]
    by_cases hbg' : is_background_pixel (img.pix x y) t' = true
    · rw [if_pos hbg']
      exact ⟨fun h => absurd h (by decide), fun h => absurd h (by decide)⟩
    · rw [if_neg hbg']
      exact ⟨fun h => absurd h (by decide), fun _ => rfl⟩

theorem C9_tolerance_monotone_witness :
    (is_background_pixel (tinyRGBA.pix 0 0) 5 = true →
      is_background_pixel (tinyRGBA.pix 0 0) 80 = true) ∧
    (∀ (img : Image RGBA) (x y : Nat),
      ((make_mask img 5).pix x y = 0 → (make_mask img 80).pix x y = 0) ∧
      ((make_mask img 80).pix x y = 255 → (make_mask img 5).pix x y = 255)) :=
  C9_tolerance_monotone (tinyRGBA.pix 0 0) 5 80 (by decide) (by decide)

/-- An imaging operation performed by the Smoother, recorded so that
statements about which library calls occur can be made. -/
inductive Op where
  | resize : Op
  | blur : Op
deriving DecidableEq, Repr

/-- The imaging-library primitives the source delegates to.  Modelled
from the spec: Lanczos resampling (`Image.resize`) and Gaussian blur
(`ImageFilter.GaussianBlur`) live in the imaging library, which is not
part of this repository; following the design notes they are pluggable
Resizer / Blurrer capabilities. -/
structure Capabilities where
  resize : {α : Type} → Nat × Nat → Image α → Image α
  blur : ℚ → Image Nat → Image Nat

/-- The spec contract for the Resizer: the result has exactly the
requested dimensions. -/
def ResizeDims (c : Capabilities) : Prop :=
  ∀ (α : Type) (sz : Nat × Nat) (i : Image α),
    (c.resize sz i).width = sz.1 ∧ (c.resize sz i).height = sz.2

/-- The spec contract for the Blurrer: dimensions are preserved. -/
def BlurDims (c : Capabilities) : Prop :=
  ∀ (r : ℚ) (m : Image Nat),
    (c.blur r m).width = m.width ∧ (c.blur r m).height = m.height

/-- The spec contract that a Gaussian blur of radius 0 is a no-op. -/
def BlurZeroId (c : Capabilities) : Prop :=
  ∀ m : Image Nat, c.blur 0 m = m

/-- Embeds `smooth_alpha(img, mask, upscale, blur_radius)`: optional
Lanczos upscale of both buffers, Gaussian blur of the mask, optional
downscale of both back by integer division of the current dimensions.
The third component records the resize/blur library calls issued, in
order. -/
def smooth_alpha (c : Capabilities) (img : Image RGB) (mask : Image Nat)
    (upscale : Nat) (blur_radius : ℚ) : Image RGB × Image Nat × List Op :=
  let step1 :=
    if 1 < upscale then
      let new_size := (img.width * upscale, img.height * upscale)
      (c.resize new_size img, c.resize new_size mask, [Op.resize, Op.resize])
    else
      (img, mask, ([] : List Op))
  let img1 := step1.1
  let mask1 := c.blur blur_radius step1.2.1
  let ops1 := step1.2.2 ++ [Op.blur]
  if 1 < upscale then
    (c.resize (img1.width / upscale, img1.height / upscale) img1,
      c.resize (mask1.width / upscale, mask1.height / upscale) mask1,
      ops1 ++ [Op.resize, Op.resize])
  else
    (img1, mask1, ops1)

/-- Modelled from the spec: a concrete Resizer instance (the source
uses the imaging library Lanczos resampler, absent from the
repository; only the dimension contract matters to the pipeline).
This instance samples by nearest coordinate. -/
def nearestResize {α : Type} (sz : Nat × Nat) (img : Image α) : Image α :=
  { width := sz.1
    height := sz.2
    pix := fun x y => img.pix (x * img.width / sz.1) (y * img.height / sz.2) }

/-- Modelled from the spec: a concrete Blurrer instance (Gaussian blur
lives in the imaging library, absent from the repository; the spec
fixes that radius 0 is a no-op and that dimensions are preserved).
This degenerate instance is the identity at every radius. -/
def idBlur (radius : ℚ) (m : Image Nat) : Image Nat := m

/-- A concrete capability bundle used by witness theorems. -/
def defaultCaps : Capabilities :=
  { resize := fun sz i => nearestResize sz i
    blur := idBlur }

theorem defaultCaps_resizeDims : ResizeDims defaultCaps :=
  fun _ _ _ => ⟨rfl, rfl⟩

theorem defaultCaps_blurDims : BlurDims defaultCaps :=
  fun _ _ => ⟨rfl, rfl⟩

theorem defaultCaps_blurZeroId : BlurZeroId defaultCaps :=
  fun _ => rfl

/-- Dimension round-trip for the Smoother, shared by the claims about
output dimensions. -/
theorem smooth_alpha_dims (c : Capabilities) (hres : ResizeDims c)
    (hbl : BlurDims c) (img : Image RGB) (mask : Image Nat)
    (u : Nat) (hu : 1 ≤ u) (r : ℚ)
    (hw : mask.width = img.width) (hh : mask.height = img.height) :
    (smooth_alpha c img mask u r).1.width = img.width ∧
    (smooth_alpha c img mask u r).1.height = img.height ∧
    (smooth_alpha c img mask u r).2.1.width = img.width ∧
    (smooth_alpha c img mask u r).2.1.height = img.height := by
  by_cases h : 1 < u
  · have hu0 : 0 < u := lt_of_lt_of_le Nat.one_pos (le_of_lt h)
    simp only [smooth_alpha, if_pos h]
    have hiw := (hres RGB (img.width * u, img.height * u) img).1
    have hih := (hres RGB (img.width * u, img.height * u) img).2
    have hmw := (hres Nat (img.width * u, img.height * u) mask).1
    have hmh := (hres Nat (img.width * u, img.height * u) mask).2
    have hbw := (hbl r (c.resize (img.width * u, img.height * u) mask)).1
    have hbh := (hbl r (c.resize (img.width * u, img.height * u) mask)).2
    refine ⟨?_, ?_, ?_, ?_⟩
    · rw [(hres RGB _ _).1, hiw, Nat.mul_div_cancel _ hu0]
    · rw [(hres RGB _ _).2, hih, Nat.mul_div_cancel _ hu0]
    · rw [(hres Nat _ _).1, hbw, hmw, Nat.mul_div_cancel _ hu0]
    · rw [(hres Nat _ _).2, hbh, hmh, Nat.mul_div_cancel _ hu0]
  · simp only [smooth_alpha, if_neg h]
    exact ⟨trivial, trivial, by rw [(hbl r mask).1, hw], by rw [(hbl r mask).2, hh]⟩

/-- Concrete color image and mask used by witness theorems. -/
def tinyRGB : Image RGB :=
  { width := 2, height := 2, pix := fun _ _ => ⟨255, 0, 0⟩ }

/-- Concrete mask of matching dimensions for the witness theorems. -/
def tinyMask : Image Nat :=
  { width := 2, height := 2, pix := fun _ _ => 255 }

/-- C2 (amended): with upscale 1 and blur radius 0 the Smoother
returns the image and the mask unchanged (the radius-0 Gaussian blur
is a no-op on the mask values) and issues no resize call; it does,
however, issue exactly one blur call, of radius 0. -/
theorem C2_passthrough (c : Capabilities) (hbl0 : BlurZeroId c)
    (img : Image RGB) (mask : Image Nat) :
    smooth_alpha c img mask 1 0 = (img, mask, [Op.blur]) := by
  simp only [smooth_alpha, if_neg (lt_irrefl 1), hbl0 mask]
  rfl

theorem C2_passthrough_witness :
    smooth_alpha defaultCaps tinyRGB tinyMask 1 0 =
      (tinyRGB, tinyMask, [Op.blur]) :=
  C2_passthrough defaultCaps defaultCaps_blurZeroId tinyRGB tinyMask

/-- C2 counterexample: at upscale 1 and blur radius 0 a blur library
call still occurs (the source applies the Gaussian filter
unconditionally), refuting the part of the claim that no resize or
blur call occurs. -/
theorem C2_blur_call_occurs :
    Op.blur ∈ (smooth_alpha defaultCaps tinyRGB tinyMask 1 0).2.2 ∧
    (smooth_alpha defaultCaps tinyRGB tinyMask 1 0).2.2 ≠ ([] : List Op) := by
  refine ⟨?_, ?_⟩ <;> decide

/-- C4: for any conforming Resizer and Blurrer, any input image and
matching-size mask and any upscale factor u ≥ 1, the Smoother returns
an image and a mask whose dimensions both equal the input
dimensions. -/
theorem C4_roundtrip_dims (c : Capabilities) (hres : ResizeDims c)
    (hbl : BlurDims c) (img : Image RGB) (mask : Image Nat)
    (u : Nat) (hu : 1 ≤ u) (r : ℚ)
    (hw : mask.width = img.width) (hh : mask.height = img.height) :
    (smooth_alpha c img mask u r).1.width = img.width ∧
    (smooth_alpha c img mask u r).1.height = img.height ∧
    (smooth_alpha c img mask u r).2.1.width = img.width ∧
    (smooth_alpha c img mask u r).2.1.height = img.height :=
  smooth_alpha_dims c hres hbl img mask u hu r hw hh

theorem C4_roundtrip_dims_witness :
    (smooth_alpha defaultCaps tinyRGB tinyMask 3 2).1.width = tinyRGB.width ∧
    (smooth_alpha defaultCaps tinyRGB tinyMask 3 2).1.height = tinyRGB.height ∧
    (smooth_alpha defaultCaps tinyRGB tinyMask 3 2).2.1.width = tinyRGB.width ∧
    (smooth_alpha defaultCaps tinyRGB tinyMask 3 2).2.1.height = tinyRGB.height :=
  C4_roundtrip_dims defaultCaps defaultCaps_resizeDims defaultCaps_blurDims
    tinyRGB tinyMask 3 (by decide) 2 rfl rfl

/-- C5: the mask dimensions equal the image dimensions at every
pipeline stage: the Mask Builder output matches its input image, and
for any upscale factor u ≥ 1 and blur radius the Smoother returns an
image and a mask of equal dimensions whenever its inputs have equal
dimensions. -/
theorem C5_dims_invariant (c : Capabilities) (hres : ResizeDims c)
    (hbl : BlurDims c) (img : Image RGBA) (t : Int)
    (ci : Image RGB) (m : Image Nat) (u : Nat) (hu : 1 ≤ u) (r : ℚ)
    (hw : m.width = ci.width) (hh : m.height = ci.height) :
    ((make_mask img t).width = img.width ∧
      (make_mask img t).height = img.height) ∧
    ((smooth_alpha c ci m u r).2.1.width = (smooth_alpha c ci m u r).1.width ∧
      (smooth_alpha c ci m u r).2.1.height = (smooth_alpha c ci m u r).1.height) := by
  have hd := smooth_alpha_dims c hres hbl ci m u hu r hw hh
  exact ⟨⟨rfl, rfl⟩, ⟨by rw [hd.2.2.1, hd.1], by rw [hd.2.2.2, hd.2.1]⟩⟩

theorem C5_dims_invariant_witness :
    ((make_mask tinyRGBA 80).width = tinyRGBA.width ∧
      (make_mask tinyRGBA 80).height = tinyRGBA.height) ∧
    ((smooth_alpha defaultCaps tinyRGB tinyMask 2 2).2.1.width =
        (smooth_alpha defaultCaps tinyRGB tinyMask 2 2).1.width ∧
      (smooth_alpha defaultCaps tinyRGB tinyMask 2 2).2.1.height =
        (smooth_alpha defaultCaps tinyRGB tinyMask 2 2).1.height) :=
  C5_dims_invariant defaultCaps defaultCaps_resizeDims defaultCaps_blurDims
    tinyRGBA 80 tinyRGB tinyMask 2 (by decide) 2 rfl rfl

/-- C7: the blur never touches the color image: the image component of
the Smoother output is unchanged if the Blurrer, the blur radius and
even the mask are replaced; and at upscale factor 1 the returned color
image is exactly the input color image, for every blur radius. -/
theorem C7_blur_only_mask (c : Capabilities)
    (blur2 : ℚ → Image Nat → Image Nat) (img : Image RGB)
    (mask mask2 : Image Nat) (u : Nat) (r r2 : ℚ) :
    ((smooth_alpha c img mask u r).1 =
      (smooth_alpha { c with blur := blur2 } img mask2 u r2).1) ∧
    (u = 1 → (smooth_alpha c img mask u r).1 = img) := by
  constructor
  · by_cases h : 1 < u
    · simp only [smooth_alpha, if_pos h]
    · simp only [smooth_alpha, if_neg h]
  · intro hu1
    subst hu1
    simp only [smooth_alpha, if_neg (lt_irrefl 1)]

theorem C7_blur_only_mask_witness :
    (smooth_alpha defaultCaps tinyRGB tinyMask 1 5).1 = tinyRGB :=
  (C7_blur_only_mask defaultCaps idBlur tinyRGB tinyMask tinyMask 1 5 0).2 rfl

/-- Embeds `img.convert("RGB")` in `main`: drops the opacity channel,
keeping the color channels. -/
def convertRGB (img : Image RGBA) : Image RGB :=
  { width := img.width
    height := img.height
    pix := fun x y => ⟨(img.pix x y).r, (img.pix x y).g, (img.pix x y).b⟩ }

/-- Embeds `img_smooth.putalpha(mask_smooth)` in `main`: attaches the
mask as the opacity channel of the color image. -/
def putalpha (img : Image RGB) (mask : Image Nat) : Image RGBA :=
  { width := img.width
    height := img.height
    pix := fun x y =>
      ⟨(img.pix x y).r, (img.pix x y).g, (img.pix x y).b, mask.pix x y⟩ }

/-- Embeds the fully-opaque solid background buffer created by
`Image.new("RGBA", img_smooth.size, args.bg)` in `main`. -/
def solidRGBA (w h : Nat) (c : RGB) : Image RGBA :=
  { width := w, height := h, pix := fun _ _ => ⟨c.r, c.g, c.b, 255⟩ }

/-- Modelled from the spec: `Image.alpha_composite(bg, img)` lives in
the imaging library, absent from the repository; the spec fixes the
over operator against a fully opaque destination,
out = src·srcA + dst·(1 − srcA) per channel, output fully opaque. -/
def alpha_composite (dst src : Image RGBA) : Image RGBA :=
  { width := dst.width
    height := dst.height
    pix := fun x y =>
      let s := src.pix x y
      let d := dst.pix x y
      ⟨(s.r * s.a + d.r * (255 - s.a)) / 255,
        (s.g * s.a + d.g * (255 - s.a)) / 255,
        (s.b * s.a + d.b * (255 - s.a)) / 255,
        255⟩ }

/-- Embeds the pipeline of `main` after decoding: build the mask from
the RGBA image, drop the opacity channel, smooth, reattach the
smoothed mask as opacity, and optionally composite over a solid
background color. -/
def runPipeline (c : Capabilities) (img : Image RGBA) (tolerance : Int)
    (upscale : Nat) (blur : ℚ) (bg : Option RGB) : Image RGBA :=
  let mask := make_mask img tolerance
  let img_no_alpha := convertRGB img
  let res := smooth_alpha c img_no_alpha mask upscale blur
  let withAlpha := putalpha res.1 res.2.1
  match bg with
  | some color => alpha_composite (solidRGBA withAlpha.width withAlpha.height color) withAlpha
  | none => withAlpha

/-- The 4×4 half-magenta, half-pure-red test image: columns 0 and 1
are (255, 0, 255), columns 2 and 3 are (255, 0, 0), fully opaque. -/
def halfImage : Image RGBA :=
  { width := 4
    height := 4
    pix := fun x _ => if x < 2 then ⟨255, 0, 255, 255⟩ else ⟨255, 0, 0, 255⟩ }

/-- C6: the full pipeline on the 4×4 half-magenta half-red image with
tolerance 10, upscale 1, blur 0 and background color #ffffff yields a
4×4 buffer that is pure white at the magenta positions and pure red at
the red positions (fully opaque). -/
theorem C6_end_to_end :
    (runPipeline defaultCaps halfImage 10 1 0 (some ⟨255, 255, 255⟩)).width = 4 ∧
    (runPipeline defaultCaps halfImage 10 1 0 (some ⟨255, 255, 255⟩)).height = 4 ∧
    ∀ x, x < 4 → ∀ y, y < 4 →
      (runPipeline defaultCaps halfImage 10 1 0 (some ⟨255, 255, 255⟩)).pix x y =
        (if x < 2 then (⟨255, 255, 255, 255⟩ : RGBA) else ⟨255, 0, 0, 255⟩) := by
  refine ⟨rfl, rfl, ?_⟩
  decide

theorem C6_end_to_end_witness :
    (runPipeline defaultCaps halfImage 10 1 0 (some ⟨255, 255, 255⟩)).pix 0 0 =
      (if (0 : Nat) < 2 then (⟨255, 255, 255, 255⟩ : RGBA) else ⟨255, 0, 0, 255⟩) :=
  C6_end_to_end.2.2 0 (by decide) 0 (by decide)

/-- C10: the input opacity channel never influences the output: two
input images with the same dimensions and identical color channels
produce identical pipeline outputs for every configuration. -/
theorem C10_alpha_independence (c : Capabilities) (i1 i2 : Image RGBA)
    (hw : i1.width = i2.width) (hh : i1.height = i2.height)
    (hrgb : ∀ x y, (i1.pix x y).r = (i2.pix x y).r ∧
      (i1.pix x y).g = (i2.pix x y).g ∧ (i1.pix x y).b = (i2.pix x y).b)
    (t : Int) (u : Nat) (r : ℚ) (bg : Option RGB) :
    runPipeline c i1 t u r bg = runPipeline c i2 t u r bg := by
  have hmask : make_mask i1 t = make_mask i2 t := by
    apply Image.ext
    · exact hw
    · exact hh
    · funext x y
      have hbg : is_background_pixel (i1.pix x y) t =
          is_background_pixel (i2.pix x y) t := by
        simp only [is_background_pixel, (hrgb x y).1, (hrgb x y).2.1,
          (hrgb x y).2.2]
      simp only [make_mask, hbg]
  have hconv : convertRGB i1 = convertRGB i2 := by
    apply Image.ext
    · exact hw
    · exact hh
    · funext x y
      simp only [convertRGB, (hrgb x y).1, (hrgb x y).2.1, (hrgb x y).2.2]
  simp only [runPipeline, hmask, hconv]

/-- A fully transparent copy of the half-magenta image: same color
channels as `halfImage`, but zero opacity everywhere. -/
def halfImageClear : Image RGBA :=
  { width := 4
    height := 4
    pix := fun x _ => if x < 2 then ⟨255, 0, 255, 0⟩ else ⟨255, 0, 0, 0⟩ }

theorem C10_alpha_independence_witness :
    runPipeline defaultCaps halfImage 80 2 2 none =
      runPipeline defaultCaps halfImageClear 80 2 2 none :=
  C10_alpha_independence defaultCaps halfImage halfImageClear rfl rfl
    (fun x y => by by_cases h : x < 2 <;> simp [halfImage, halfImageClear, h])
    80 2 2 none

end SmoothEdges
